import Mathlib

/-!
Shallow embedding of the `iunpack!` sequence-destructuring engine of
`src/src/lib.rs` (crate `itermacros`).

The engine matches an iterable source against a pattern made of a fixed
prefix of slots, an optional variable-length middle, and a fixed suffix of
slots.  We model a forward-only source as the `List` of its remaining
elements (`Iterator::next` = take the head, `DoubleEndedIterator::next_back`
= take the last element), and a slot (a Rust refutable pattern `$pat:pat`)
as a predicate `α → Bool`: the pattern's bindings are projections of the
matched element, so the model binds the element itself.

Each entry rule of the macro is translated into one Lean function:

* `iunpack_sized`       — the no-middle entry rule with `else(err)`
                          (lines 182-197), depth-counting via `@sized_pat`
                          with the `$errval` argument (lines 135-150);
* `iunpack_dei`         — the `*name` / `*` DoubleEndedIterator rule
                          (lines 199-219), suffix pulled from the back by
                          `@revpat_do_iter_back` (lines 118-134);
* `iunpack_resum`       — the `*=name` rule (lines 220-235);
* `iunpack_fwd`         — the `**name` forward-only rule (lines 266-303)
                          with its circular tail buffer;
* `iunpack_fwd_unnamed` — the `**` forward-only rule (lines 236-265).
-/

namespace IUnpack

/-- Models `DoubleEndedIterator::next_back` on the list of remaining
elements: removes and returns the last element, together with the elements
still remaining, or `none` when the source is exhausted. -/
def next_back {α : Type} : List α → Option (List α × α)
  | [] => none
  | [x] => some ([], x)
  | x :: y :: ys =>
    match next_back (y :: ys) with
    | some (zs, b) => some (x :: zs, b)
    | none => none

/-- A list of slot predicates applied positionally to a list of elements:
`true` iff the lengths agree and every slot accepts its element.  This is
the semantics of the slice pattern `[$($bpat),+]` of lines 261 and 299, and
is also used to phrase "all slots accept" hypotheses. -/
def slots_match {α : Type} : List (α → Bool) → List α → Bool
  | [], [] => true
  | s :: ss, x :: xs => s x && slots_match ss xs
  | _, _ => false

/-- The `@sized_pat` rule without the error counter (lines 151-164): pull
one element per slot from the front; on exhaustion or rejection the error
body runs (`none`); on success the body runs with the bound values and the
remaining source. -/
def sized_pat {α : Type} : List (α → Bool) → List α → Option (List α × List α)
  | [], it => some ([], it)
  | s :: ss, it =>
    match it with
    | [] => none
    | x :: xs =>
      if s x then
        match sized_pat ss xs with
        | some (vs, rest) => some (x :: vs, rest)
        | none => none
      else none

/-- The `@sized_pat` rule with the `$errval` counter (lines 135-150): like
`sized_pat`, but `errval` is incremented after each accepted element, the
error body observes its value at the failure point, and the success body
observes its final value. -/
def sized_pat_errval {α : Type} :
    List (α → Bool) → List α → Nat → Except Nat (List α × List α × Nat)
  | [], it, errval => .ok ([], it, errval)
  | s :: ss, it, errval =>
    match it with
    | [] => .error errval
    | x :: xs =>
      if s x then
        match sized_pat_errval ss xs (errval + 1) with
        | .ok (vs, rest, d) => .ok (x :: vs, rest, d)
        | .error e => .error e
      else .error errval

/-- The no-middle entry rule with `else($err:ident)` (lines 182-197):
match every slot via `sized_pat_errval` starting from `$err = 0`, then
perform one extra pull on the source; another element means too many
(failure at the current depth), exhaustion means success.  The rule at
lines 166-180 is the same with the counter removed and the failure value
discarded. -/
def iunpack_sized {α : Type} (fslots : List (α → Bool)) (src : List α) :
    Except Nat (List α) :=
  match sized_pat_errval fslots src 0 with
  | .error d => .error d
  | .ok (vals, rest, d) =>
    match rest with
    | [] => .ok vals
    | _ :: _ => .error d

/-- The `@revpat_do_iter_back` rule (lines 118-134): given the suffix slots
in written (left-to-right) order, pull one element per slot from the back
of the source, rightmost slot first (the recursion nests the leftmost
slot's pull innermost, so it runs last); exhaustion or rejection runs the
error body (`none`).  On success, returns the still-remaining source and
the suffix values in left-to-right order. -/
def revpat_back {α : Type} : List (α → Bool) → List α → Option (List α × List α)
  | [], it => some (it, [])
  | b :: bs, it =>
    match revpat_back bs it with
    | none => none
    | some (it1, vs) =>
      match next_back it1 with
      | none => none
      | some (it2, x) => if b x then some (it2, x :: vs) else none

/-- Outcome of a destructuring attempt of a pattern with a middle region:
success carries the bound prefix values, the middle (collected contents,
or the still-live cursor for `*=`), and the bound suffix values, all in
left-to-right order.  `oobPanic` marks an out-of-bounds buffer access or
rotation — a runtime panic, distinguished from an ordinary mismatch. -/
inductive MRes (α : Type) : Type
  | ok : List α → List α → List α → MRes α
  | mismatch : MRes α
  | oobPanic : MRes α

/-- The `use DoubleEndedIterator` entry rule (lines 199-219): prefix via
`@sized_pat`, suffix from the back via `@revpat_do_iter_back`, then the
remaining elements are collected in forward order (`from_iter(__iter)`)
as the middle.  The unnamed `*` form is identical except that the
collected middle is not bound. -/
def iunpack_dei {α : Type} (fslots bslots : List (α → Bool)) (src : List α) :
    MRes α :=
  match sized_pat fslots src with
  | none => .mismatch
  | some (pvals, rest) =>
    match revpat_back bslots rest with
    | none => .mismatch
    | some (rest2, svals) => .ok pvals rest2 svals

/-- The `*=$mid` entry rule (lines 220-235): prefix via `@sized_pat`,
suffix from the back via `@revpat_do_iter_back`, and the body then receives
the still-live cursor itself (here: the list of elements it has left to
yield) bound to the middle name, with no exhaustion or length check on
it. -/
def iunpack_resum {α : Type} (fslots bslots : List (α → Bool)) (src : List α) :
    MRes α :=
  match sized_pat fslots src with
  | none => .mismatch
  | some (pvals, rest) =>
    match revpat_back bslots rest with
    | none => .mismatch
    | some (rest2, svals) => .ok pvals rest2 svals

/-- The buffer-initialisation array literal of lines 244-251 and 274-281:
pull `k` elements from the source into the buffer in order; every pulled
element is accepted at this point (the array literal matches it against
the irrefutable binder chosen by `@if(x) else $bpat`, i.e. plain `x`);
exhaustion before `k` elements runs the error body (`none`). -/
def fill_buf {α : Type} : Nat → List α → Option (List α × List α)
  | 0, it => some ([], it)
  | k + 1, it =>
    match it with
    | [] => none
    | x :: xs =>
      match fill_buf k xs with
      | some (buf, rest) => some (x :: buf, rest)
      | none => none

/-- Rust's `slice::rotate_left(n)` for `n ≤ length`: the element at index
`n` becomes the first element. -/
def rotate_left {α : Type} (l : List α) (n : Nat) : List α := l.drop n ++ l.take n

/-- The while-loop of lines 286-296: for each further element, the element
currently at buffer position `__i` is evicted by `mem::replace` and handed
to the middle collector (appended, in eviction order), the new element is
stored there, and the cursor advances modulo the buffer length.  Indexing
the buffer out of bounds is a panic, modelled as `none`.  Returns the
collected middle, the final buffer, and the final cursor. -/
def window_loop {α : Type} :
    List α → List α → Nat → List α → Option (List α × List α × Nat)
  | [], buf, i, mid => some (mid, buf, i)
  | x :: xs, buf, i, mid =>
    match buf[i]? with
    | none => none
    | some old => window_loop xs (buf.set i x) ((i + 1) % buf.length) (mid ++ [old])

/-- The while-loop of lines 253-258 (unnamed `**` form): identical to
`window_loop` except that the evicted element is simply overwritten and
dropped. -/
def window_loop_drop {α : Type} : List α → List α → Nat → Option (List α × Nat)
  | [], buf, i => some (buf, i)
  | x :: xs, buf, i =>
    match buf[i]? with
    | none => none
    | some _ => window_loop_drop xs (buf.set i x) ((i + 1) % buf.length)

/-- The `use Iterator` entry rule for `**$mid` (lines 266-303): prefix via
`@sized_pat`; fill a `k`-sized buffer from the source; slide the buffer
over the rest of the source collecting evicted elements as the middle;
rotate the buffer left by the final cursor (a panic if the cursor exceeds
the length); finally match the suffix slots against the rotated buffer via
the slice pattern `[$($bpat),+]`, whose bound values are the suffix
result. -/
def iunpack_fwd {α : Type} (fslots bslots : List (α → Bool)) (src : List α) :
    MRes α :=
  match sized_pat fslots src with
  | none => .mismatch
  | some (pvals, rest) =>
    match fill_buf bslots.length rest with
    | none => .mismatch
    | some (buf0, rest2) =>
      match window_loop rest2 buf0 0 [] with
      | none => .oobPanic
      | some (mid, buf1, i1) =>
        if buf1.length < i1 then .oobPanic
        else
          if slots_match bslots (rotate_left buf1 i1) then
            .ok pvals mid (rotate_left buf1 i1)
          else .mismatch

/-- Outcome of the unnamed forward-only form: success carries the bound
prefix values and the bound suffix values. -/
inductive URes (α : Type) : Type
  | ok : List α → List α → URes α
  | mismatch : URes α
  | oobPanic : URes α

/-- The `use Iterator unnamed` entry rule for `**` (lines 236-265): like
`iunpack_fwd` but evicted middle elements are dropped. -/
def iunpack_fwd_unnamed {α : Type} (fslots bslots : List (α → Bool))
    (src : List α) : URes α :=
  match sized_pat fslots src with
  | none => .mismatch
  | some (pvals, rest) =>
    match fill_buf bslots.length rest with
    | none => .mismatch
    | some (buf0, rest2) =>
      match window_loop_drop rest2 buf0 0 with
      | none => .oobPanic
      | some (buf1, i1) =>
        if buf1.length < i1 then .oobPanic
        else
          if slots_match bslots (rotate_left buf1 i1) then
            .ok pvals (rotate_left buf1 i1)
          else .mismatch

/-- The middle-marker shapes distinguished by the macro's entry rules. -/
inductive MidForm : Type
  | noMiddle
  | star
  | starEq
  | starStar

/-- Translated from the failure-handler grammar of the entry rules: only
the no-middle shape has an entry rule whose `else` binds an identifier
receiving the mismatch depth (`else($err:ident) $errbody:block`, lines
182-197); the entry rules for `*` and `*name` (line 202), `*=name`
(line 224), and `**` and `**name` (lines 240 and 270) each accept only a
bare `else $errbody:expr`, so their failure handlers receive no depth
value. -/
def else_depth_supported : MidForm → Bool
  | .noMiddle => true
  | .star => false
  | .starEq => false
  | .starStar => false

/-- Reference outcome of a middle-carrying match, used to characterise the
strategies: success exactly when the source is long enough, the prefix
slots accept the first `p` elements and the suffix slots accept the last
`k` elements; the bound values are then the three segments of the source
in order. -/
def mres_spec {α : Type} (fslots bslots : List (α → Bool)) (src : List α) :
    MRes α :=
  if fslots.length + bslots.length ≤ src.length
      ∧ slots_match fslots (src.take fslots.length) = true
      ∧ slots_match bslots (src.drop (src.length - bslots.length)) = true
  then .ok (src.take fslots.length)
       ((src.drop fslots.length).take (src.length - fslots.length - bslots.length))
       (src.drop (src.length - bslots.length))
  else .mismatch

theorem slots_match_length {α : Type} :
    ∀ {ss : List (α → Bool)} {xs : List α}, slots_match ss xs = true →
      ss.length = xs.length
  | [], [], _ => rfl
  | [], _ :: _, h => by simp [slots_match] at h
  | _ :: _, [], h => by simp [slots_match] at h
  | s :: ss, x :: xs, h => by
    simp only [slots_match, Bool.and_eq_true] at h
    simpa [List.length_cons] using slots_match_length h.2

theorem slots_match_take_le {α : Type} {ss : List (α → Bool)} {xs : List α}
    (h : slots_match ss (xs.take ss.length) = true) : ss.length ≤ xs.length := by
  have := slots_match_length h
  rw [List.length_take] at this
  omega

theorem sized_pat_of_match {α : Type} :
    ∀ (ss : List (α → Bool)) (xs : List α),
      slots_match ss (xs.take ss.length) = true →
      sized_pat ss xs = some (xs.take ss.length, xs.drop ss.length)
  | [], xs, _ => by simp [sized_pat]
  | s :: ss, [], h => by simp [slots_match] at h
  | s :: ss, x :: xs, h => by
    simp only [List.length_cons, List.take_succ_cons, slots_match,
      Bool.and_eq_true] at h
    simp only [sized_pat, h.1, if_true, sized_pat_of_match ss xs h.2,
      List.length_cons, List.take_succ_cons, List.drop_succ_cons]

theorem sized_pat_none {α : Type} :
    ∀ (ss : List (α → Bool)) (xs : List α),
      slots_match ss (xs.take ss.length) = false →
      sized_pat ss xs = none
  | [], xs, h => by simp [slots_match] at h
  | s :: ss, [], _ => by simp [sized_pat]
  | s :: ss, x :: xs, h => by
    simp only [List.length_cons, List.take_succ_cons, slots_match,
      Bool.and_eq_false_iff] at h
    rcases h with h | h
    · simp [sized_pat, h]
    · simp [sized_pat, sized_pat_none ss xs h]

theorem sized_pat_errval_of_match {α : Type} :
    ∀ (ss : List (α → Bool)) (xs : List α) (d : Nat),
      slots_match ss (xs.take ss.length) = true →
      sized_pat_errval ss xs d =
        .ok (xs.take ss.length, xs.drop ss.length, d + ss.length)
  | [], xs, d, _ => by simp [sized_pat_errval]
  | s :: ss, [], d, h => by simp [slots_match] at h
  | s :: ss, x :: xs, d, h => by
    simp only [List.length_cons, List.take_succ_cons, slots_match,
      Bool.and_eq_true] at h
    have harith : d + 1 + ss.length = d + (ss.length + 1) := by omega
    simp only [sized_pat_errval, h.1, if_true,
      sized_pat_errval_of_match ss xs (d + 1) h.2,
      List.length_cons, List.take_succ_cons, List.drop_succ_cons, harith]

/-- Failure of the counting prefix matcher at an explicit split: slots
`ss` have accepted the elements `xs` pairwise, and the next slot `s` then
meets either an exhausted source or an element it rejects; the reported
error value is the count of elements accepted so far. -/
theorem sized_pat_errval_split {α : Type} :
    ∀ (ss : List (α → Bool)) (xs : List α), slots_match ss xs = true →
      ∀ (s : α → Bool) (rest : List (α → Bool)) (tail : List α) (d : Nat),
        (tail = [] ∨ ∃ y ys, tail = y :: ys ∧ s y = false) →
        sized_pat_errval (ss ++ s :: rest) (xs ++ tail) d = .error (d + ss.length)
  | [], [], _, s, rest, tail, d, hfail => by
    rcases hfail with rfl | ⟨y, ys, rfl, hy⟩
    · simp [sized_pat_errval]
    · simp [sized_pat_errval, hy]
  | [], _ :: _, h, _, _, _, _, _ => by simp [slots_match] at h
  | _ :: _, [], h, _, _, _, _, _ => by simp [slots_match] at h
  | s0 :: ss, x0 :: xs, h, s, rest, tail, d, hfail => by
    simp only [slots_match, Bool.and_eq_true] at h
    have ih := sized_pat_errval_split ss xs h.2 s rest tail (d + 1) hfail
    have harith : d + 1 + ss.length = d + (ss.length + 1) := by omega
    simp only [List.cons_append, sized_pat_errval, h.1, if_true,
      List.append_eq, ih, List.length_cons, harith]

theorem next_back_append {α : Type} :
    ∀ (xs : List α) (x : α), next_back (xs ++ [x]) = some (xs, x)
  | [], x => rfl
  | [a], x => rfl
  | a :: b :: bs, x => by
    have ih := next_back_append (b :: bs) x
    simp only [List.cons_append] at ih ⊢
    simp only [next_back, ih]

/-- Success of the back extractor at an explicit split: if the suffix slots
accept `tail` pairwise, the extractor peels exactly `tail` off the back and
returns the remaining front together with the suffix values in
left-to-right order. -/
theorem revpat_back_of_match {α : Type} :
    ∀ (bs : List (α → Bool)) (front tail : List α),
      slots_match bs tail = true →
      revpat_back bs (front ++ tail) = some (front, tail)
  | [], front, [], _ => by simp [revpat_back]
  | [], front, _ :: _, h => by simp [slots_match] at h
  | b :: bs, front, [], h => by simp [slots_match] at h
  | b :: bs, front, t :: ts, h => by
    simp only [slots_match, Bool.and_eq_true] at h
    have ih := revpat_back_of_match bs (front ++ [t]) ts h.2
    rw [List.append_assoc] at ih
    simp only [List.singleton_append] at ih
    simp only [revpat_back, ih, next_back_append, h.1, if_true]

theorem revpat_back_none_of_reject {α : Type} :
    ∀ (bs : List (α → Bool)) (front tail : List α),
      tail.length = bs.length → slots_match bs tail = false →
      revpat_back bs (front ++ tail) = none
  | [], front, [], _, h => by simp [slots_match] at h
  | [], front, _ :: _, hl, _ => by simp at hl
  | b :: bs, front, [], hl, _ => by simp at hl
  | b :: bs, front, t :: ts, hl, h => by
    simp only [List.length_cons, Nat.succ_inj] at hl
    simp only [slots_match, Bool.and_eq_false_iff] at h
    rcases hm : slots_match bs ts with _ | _
    · have ih := revpat_back_none_of_reject bs (front ++ [t]) ts hl hm
      rw [List.append_assoc] at ih
      simp only [List.singleton_append] at ih
      simp [revpat_back, ih]
    · have hb : b t = false := by
        rcases h with h | h
        · exact h
        · rw [hm] at h; simp at h
      have ha := revpat_back_of_match bs (front ++ [t]) ts hm
      rw [List.append_assoc] at ha
      simp only [List.singleton_append] at ha
      simp [revpat_back, ha, next_back_append, hb]

theorem revpat_back_none_of_short {α : Type} :
    ∀ (bs : List (α → Bool)) (it : List α),
      it.length < bs.length → revpat_back bs it = none
  | [], it, h => by simp at h
  | b :: bs, it, h => by
    simp only [List.length_cons] at h
    rcases Nat.lt_or_ge it.length bs.length with hlt | hge
    · simp [revpat_back, revpat_back_none_of_short bs it hlt]
    · have heq : it.length = bs.length := by omega
      rcases hm : slots_match bs it with _ | _
      · have ih := revpat_back_none_of_reject bs [] it heq hm
        simp only [List.nil_append] at ih
        simp [revpat_back, ih]
      · have ih := revpat_back_of_match bs [] it hm
        simp only [List.nil_append] at ih
        simp [revpat_back, ih, next_back]

theorem fill_buf_of_le {α : Type} :
    ∀ (k : Nat) (it : List α), k ≤ it.length →
      fill_buf k it = some (it.take k, it.drop k)
  | 0, it, _ => by simp [fill_buf]
  | k + 1, [], h => by simp at h
  | k + 1, x :: xs, h => by
    simp only [List.length_cons, Nat.add_le_add_iff_right] at h
    simp only [fill_buf, fill_buf_of_le k xs h, List.take_succ_cons,
      List.drop_succ_cons]

theorem fill_buf_none_of_lt {α : Type} :
    ∀ (k : Nat) (it : List α), it.length < k → fill_buf k it = none
  | 0, it, h => by simp at h
  | k + 1, [], _ => by simp [fill_buf]
  | k + 1, x :: xs, h => by
    simp only [List.length_cons, Nat.add_lt_add_iff_right] at h
    simp [fill_buf, fill_buf_none_of_lt k xs h]

theorem rotate_left_cons {α : Type} (buf : List α) (i : Nat)
    (h : i < buf.length) :
    rotate_left buf i = buf[i] :: (buf.drop (i + 1) ++ buf.take i) := by
  unfold rotate_left
  rw [List.drop_eq_getElem_cons h, List.cons_append]

/-- Advancing the circular buffer by one element: writing `x` at the
cursor and stepping the cursor modulo the length turns the buffer's
logical (rotated) view `old :: t` into `t ++ [x]`. -/
theorem rotate_left_set {α : Type} (buf : List α) (i : Nat) (x : α)
    (h : i < buf.length) :
    rotate_left (buf.set i x) ((i + 1) % buf.length) =
      (buf.drop (i + 1) ++ buf.take i) ++ [x] := by
  have hset : buf.set i x = (buf.take i ++ [x]) ++ buf.drop (i + 1) := by
    rw [List.set_eq_take_cons_drop x h, List.append_assoc, List.singleton_append]
  have hlen1 : (buf.take i ++ [x]).length = i + 1 := by
    simp [List.length_take]
    omega
  rcases Nat.lt_or_ge (i + 1) buf.length with hlt | hge
  · rw [Nat.mod_eq_of_lt hlt]
    unfold rotate_left
    rw [hset, List.drop_left' hlen1, List.take_left' hlen1, List.append_assoc]
  · have hieq : i + 1 = buf.length := by omega
    have hmod : (i + 1) % buf.length = 0 := by
      rw [hieq, Nat.mod_self]
    have hdropnil : buf.drop (i + 1) = [] := by
      rw [hieq, List.drop_length]
    rw [hmod]
    unfold rotate_left
    rw [List.drop_zero, List.take_zero, List.append_nil, hset, hdropnil,
      List.append_nil, List.nil_append]

/-- Full characterisation of the sliding-window loop of the named `**`
form: starting from an in-bounds cursor, the loop never goes out of
bounds, the evicted elements extend the middle with the first `rest.length`
elements of (logical buffer view ++ rest) — i.e. in original stream
order — and the final logical buffer view is the last `buf.length`
elements of that same stream. -/
theorem window_loop_spec {α : Type} :
    ∀ (rest buf : List α) (i : Nat) (mid : List α),
      0 < buf.length → i < buf.length →
      ∃ buf2 i2,
        window_loop rest buf i mid =
          some (mid ++ (rotate_left buf i ++ rest).take rest.length, buf2, i2)
        ∧ i2 < buf2.length ∧ buf2.length = buf.length
        ∧ rotate_left buf2 i2 = (rotate_left buf i ++ rest).drop rest.length
  | [], buf, i, mid, _, hi => by
    refine ⟨buf, i, ?_, hi, rfl, ?_⟩
    · simp [window_loop]
    · simp
  | x :: xs, buf, i, mid, h0, hi => by
    have hget : buf[i]? = some buf[i] := List.getElem?_eq_getElem hi
    have h0' : 0 < (buf.set i x).length := by
      rw [List.length_set]; exact h0
    have hi' : (i + 1) % buf.length < (buf.set i x).length := by
      rw [List.length_set]; exact Nat.mod_lt _ h0
    obtain ⟨buf2, i2, heq, hi2, hlen2, hrot⟩ :=
      window_loop_spec xs (buf.set i x) ((i + 1) % buf.length)
        (mid ++ [buf[i]]) h0' hi'
    refine ⟨buf2, i2, ?_, hi2, by rw [hlen2, List.length_set], ?_⟩
    · simp only [window_loop, hget]
      rw [heq, rotate_left_set buf i x hi, rotate_left_cons buf i hi]
      simp [List.append_assoc, List.take_succ_cons]
    · rw [hrot, rotate_left_set buf i x hi, rotate_left_cons buf i hi]
      simp [List.append_assoc, List.drop_succ_cons]

/-- The unnamed variant never goes out of bounds either and preserves the
buffer length and cursor bound. -/
theorem window_loop_drop_spec {α : Type} :
    ∀ (rest buf : List α) (i : Nat),
      0 < buf.length → i < buf.length →
      ∃ buf2 i2, window_loop_drop rest buf i = some (buf2, i2)
        ∧ i2 < buf2.length
  | [], buf, i, _, hi => ⟨buf, i, rfl, hi⟩
  | x :: xs, buf, i, h0, hi => by
    have hget : buf[i]? = some buf[i] := List.getElem?_eq_getElem hi
    have h0' : 0 < (buf.set i x).length := by
      rw [List.length_set]; exact h0
    have hi' : (i + 1) % buf.length < (buf.set i x).length := by
      rw [List.length_set]; exact Nat.mod_lt _ h0
    obtain ⟨buf2, i2, heq, hi2⟩ :=
      window_loop_drop_spec xs (buf.set i x) ((i + 1) % buf.length) h0' hi'
    exact ⟨buf2, i2, by rw [window_loop_drop, hget]; exact heq, hi2⟩

theorem rotate_left_zero {α : Type} (l : List α) : rotate_left l 0 = l := by
  simp [rotate_left]

/-- The forward-only named strategy (`**name`) computes exactly the
reference outcome, provided the suffix has at least one slot (which its
grammar `$(, $bpat)+` guarantees). -/
theorem iunpack_fwd_eq_spec {α : Type} (fslots bslots : List (α → Bool))
    (src : List α) (hk : 0 < bslots.length) :
    iunpack_fwd fslots bslots src = mres_spec fslots bslots src := by
  unfold iunpack_fwd mres_spec
  by_cases hpre : slots_match fslots (src.take fslots.length) = true
  · have hple := slots_match_take_le hpre
    simp only [sized_pat_of_match _ _ hpre]
    by_cases hlen : fslots.length + bslots.length ≤ src.length
    · have hkrest : bslots.length ≤ (src.drop fslots.length).length := by
        rw [List.length_drop]; omega
      simp only [fill_buf_of_le _ _ hkrest]
      have h0 : 0 < ((src.drop fslots.length).take bslots.length).length := by
        rw [List.length_take]; omega
      obtain ⟨buf2, i2, heq, hi2, hlen2, hrot⟩ :=
        window_loop_spec ((src.drop fslots.length).drop bslots.length)
          ((src.drop fslots.length).take bslots.length) 0 [] h0 h0
      simp only [heq]
      have hcomb :
          rotate_left ((src.drop fslots.length).take bslots.length) 0 ++
            (src.drop fslots.length).drop bslots.length = src.drop fslots.length := by
        rw [rotate_left_zero, List.take_append_drop]
      have hr2len : ((src.drop fslots.length).drop bslots.length).length =
          src.length - fslots.length - bslots.length := by
        simp only [List.length_drop]
      have hdrop2 : (src.drop fslots.length).drop
            (src.length - fslots.length - bslots.length) =
          src.drop (src.length - bslots.length) := by
        rw [List.drop_drop]; congr 1; omega
      rw [hcomb, hr2len] at heq hrot ⊢
      rw [hdrop2] at hrot
      rw [if_neg (by omega)]
      by_cases hsuf :
          slots_match bslots (src.drop (src.length - bslots.length)) = true
      · rw [hrot, if_pos hsuf, if_pos ⟨hlen, hpre, hsuf⟩, List.nil_append]
      · rw [hrot, if_neg (by simp [hsuf]), if_neg (fun h => hsuf h.2.2)]
    · have hshort : (src.drop fslots.length).length < bslots.length := by
        rw [List.length_drop]; omega
      simp only [fill_buf_none_of_lt _ _ hshort]
      rw [if_neg (fun h => hlen h.1)]
  · simp only [sized_pat_none _ _ (by simpa using hpre)]
    rw [if_neg (fun h => hpre h.2.1)]

/-- The bidirectional strategy (`*name`, DoubleEndedIterator) computes
exactly the reference outcome. -/
theorem iunpack_dei_eq_spec {α : Type} (fslots bslots : List (α → Bool))
    (src : List α) :
    iunpack_dei fslots bslots src = mres_spec fslots bslots src := by
  unfold iunpack_dei mres_spec
  by_cases hpre : slots_match fslots (src.take fslots.length) = true
  · have hple := slots_match_take_le hpre
    simp only [sized_pat_of_match _ _ hpre]
    by_cases hlen : fslots.length + bslots.length ≤ src.length
    · have hdrop2 : (src.drop fslots.length).drop
            (src.length - fslots.length - bslots.length) =
          src.drop (src.length - bslots.length) := by
        rw [List.drop_drop]; congr 1; omega
      have hsplit : src.drop fslots.length =
          (src.drop fslots.length).take
              (src.length - fslots.length - bslots.length) ++
            src.drop (src.length - bslots.length) := by
        rw [← hdrop2, List.take_append_drop]
      have htlen : (src.drop (src.length - bslots.length)).length =
          bslots.length := by
        rw [List.length_drop]; omega
      by_cases hsuf :
          slots_match bslots (src.drop (src.length - bslots.length)) = true
      · conv_lhs => rw [hsplit]
        simp only [revpat_back_of_match bslots _ _ hsuf]
        rw [if_pos ⟨hlen, hpre, hsuf⟩]
      · conv_lhs => rw [hsplit]
        simp only [revpat_back_none_of_reject bslots _ _ htlen
          (by simpa using hsuf)]
        rw [if_neg (fun h => hsuf h.2.2)]
    · have hshort : (src.drop fslots.length).length < bslots.length := by
        rw [List.length_drop]; omega
      simp only [revpat_back_none_of_short bslots _ hshort]
      rw [if_neg (fun h => hlen h.1)]
  · simp only [sized_pat_none _ _ (by simpa using hpre)]
    rw [if_neg (fun h => hpre h.2.1)]

/-- The resumable-middle strategy (`*=name`) computes exactly the
reference outcome, the middle component being the still-live cursor's
remaining elements. -/
theorem iunpack_resum_eq_spec {α : Type} (fslots bslots : List (α → Bool))
    (src : List α) :
    iunpack_resum fslots bslots src = mres_spec fslots bslots src := by
  unfold iunpack_resum mres_spec
  by_cases hpre : slots_match fslots (src.take fslots.length) = true
  · have hple := slots_match_take_le hpre
    simp only [sized_pat_of_match _ _ hpre]
    by_cases hlen : fslots.length + bslots.length ≤ src.length
    · have hdrop2 : (src.drop fslots.length).drop
            (src.length - fslots.length - bslots.length) =
          src.drop (src.length - bslots.length) := by
        rw [List.drop_drop]; congr 1; omega
      have hsplit : src.drop fslots.length =
          (src.drop fslots.length).take
              (src.length - fslots.length - bslots.length) ++
            src.drop (src.length - bslots.length) := by
        rw [← hdrop2, List.take_append_drop]
      have htlen : (src.drop (src.length - bslots.length)).length =
          bslots.length := by
        rw [List.length_drop]; omega
      by_cases hsuf :
          slots_match bslots (src.drop (src.length - bslots.length)) = true
      · conv_lhs => rw [hsplit]
        simp only [revpat_back_of_match bslots _ _ hsuf]
        rw [if_pos ⟨hlen, hpre, hsuf⟩]
      · conv_lhs => rw [hsplit]
        simp only [revpat_back_none_of_reject bslots _ _ htlen
          (by simpa using hsuf)]
        rw [if_neg (fun h => hsuf h.2.2)]
    · have hshort : (src.drop fslots.length).length < bslots.length := by
        rw [List.length_drop]; omega
      simp only [revpat_back_none_of_short bslots _ hshort]
      rw [if_neg (fun h => hlen h.1)]
  · simp only [sized_pat_none _ _ (by simpa using hpre)]
    rw [if_neg (fun h => hpre h.2.1)]

/-- The reference outcome on a source given as an explicit three-segment
split whose outer segments the slots accept. -/
theorem mres_spec_append {α : Type} (fslots bslots : List (α → Bool))
    (pre mid suf : List α) (hp : slots_match fslots pre = true)
    (hs : slots_match bslots suf = true) :
    mres_spec fslots bslots (pre ++ mid ++ suf) = .ok pre mid suf := by
  have lp : fslots.length = pre.length := slots_match_length hp
  have ls : bslots.length = suf.length := slots_match_length hs
  have hsub : (pre ++ mid ++ suf).length - bslots.length =
      (pre ++ mid).length := by
    simp only [List.length_append, ls]
    omega
  have htake : (pre ++ mid ++ suf).take fslots.length = pre := by
    rw [List.append_assoc]; exact List.take_left' lp.symm
  have hdropk : (pre ++ mid ++ suf).drop
      ((pre ++ mid ++ suf).length - bslots.length) = suf := by
    rw [hsub]; exact List.drop_left _ _
  have hmidlen : (pre ++ mid ++ suf).length - fslots.length - bslots.length =
      mid.length := by
    simp only [List.length_append, lp, ls]
    omega
  have hmid : ((pre ++ mid ++ suf).drop fslots.length).take
      ((pre ++ mid ++ suf).length - fslots.length - bslots.length) = mid := by
    rw [hmidlen, List.append_assoc, List.drop_left' lp.symm]
    exact List.take_left' rfl
  have hp' : slots_match fslots ((pre ++ mid ++ suf).take fslots.length)
      = true := by rw [htake]; exact hp
  have hs' : slots_match bslots ((pre ++ mid ++ suf).drop
      ((pre ++ mid ++ suf).length - bslots.length)) = true := by
    rw [hdropk]; exact hs
  have hl : fslots.length + bslots.length ≤ (pre ++ mid ++ suf).length := by
    simp only [List.length_append, lp, ls]
    omega
  unfold mres_spec
  rw [if_pos ⟨hl, hp', hs'⟩, htake, hmid, hdropk]

theorem mres_spec_ne_panic {α : Type} (fslots bslots : List (α → Bool))
    (src : List α) : mres_spec fslots bslots src ≠ MRes.oobPanic := by
  unfold mres_spec
  split <;> simp

/-- The unnamed forward-only strategy (`**`) never reaches the
out-of-bounds outcome when the suffix has at least one slot. -/
theorem iunpack_fwd_unnamed_no_panic {α : Type}
    (fslots bslots : List (α → Bool)) (src : List α)
    (hk : 0 < bslots.length) :
    iunpack_fwd_unnamed fslots bslots src ≠ URes.oobPanic := by
  unfold iunpack_fwd_unnamed
  by_cases hpre : slots_match fslots (src.take fslots.length) = true
  · simp only [sized_pat_of_match _ _ hpre]
    by_cases hlen : bslots.length ≤ (src.drop fslots.length).length
    · simp only [fill_buf_of_le _ _ hlen]
      have h0 : 0 < ((src.drop fslots.length).take bslots.length).length := by
        rw [List.length_take]; omega
      obtain ⟨buf2, i2, heq, hi2⟩ :=
        window_loop_drop_spec ((src.drop fslots.length).drop bslots.length)
          ((src.drop fslots.length).take bslots.length) 0 h0 h0
      simp only [heq]
      rw [if_neg (by omega)]
      split <;> simp
    · simp only [fill_buf_none_of_lt _ _ (by omega :
        (src.drop fslots.length).length < bslots.length)]
      simp
  · simp only [sized_pat_none _ _ (by simpa using hpre)]
    simp

/-- C1: for the forward-only single-pass tail window strategy (`**name`,
lines 266-303) with prefix arity `p` and suffix arity `k ≥ 1`, on every
input of length at least `p + k` whose first `p` elements the prefix slots
accept and whose last `k` elements the suffix slots accept, the match
succeeds, the bound suffix values equal the last `k` elements of the
source in original order, and the collected middle equals the elements
strictly between prefix and suffix in original order.  The input is given
as the explicit decomposition `pre ++ mid ++ suf`. -/
theorem c1_window_correct {α : Type} (fslots bslots : List (α → Bool))
    (pre mid suf : List α) (hk : 0 < bslots.length)
    (hp : slots_match fslots pre = true) (hs : slots_match bslots suf = true) :
    iunpack_fwd fslots bslots (pre ++ mid ++ suf) = .ok pre mid suf := by
  rw [iunpack_fwd_eq_spec _ _ _ hk, mres_spec_append _ _ _ _ _ hp hs]

theorem c1_witness :
    iunpack_fwd [fun x => x == 0] [fun x => x == 3, fun _ => true]
      ([0] ++ [1, 2] ++ [3, 4] : List Nat) = .ok [0] [1, 2] [3, 4] :=
  c1_window_correct _ _ _ _ _ (by decide) (by decide) (by decide)

/-- C2: for every source and every pair of prefix/suffix slot lists (with
at least one suffix slot, as the `**` grammar requires), the bidirectional
collecting middle form `*name` and the forward-only collecting middle form
`**name` produce identical prefix bindings, collected middle contents,
suffix bindings, and the same success/failure outcome. -/
theorem c2_fwd_eq_dei {α : Type} (fslots bslots : List (α → Bool))
    (src : List α) (hk : 0 < bslots.length) :
    iunpack_fwd fslots bslots src = iunpack_dei fslots bslots src := by
  rw [iunpack_fwd_eq_spec _ _ _ hk, iunpack_dei_eq_spec]

theorem c2_witness :
    iunpack_fwd [fun _ => true] [fun _ => true] ([9, 8, 7] : List Nat)
      = iunpack_dei [fun _ => true] [fun _ => true] [9, 8, 7] :=
  c2_fwd_eq_dei _ _ _ (by decide)

/-- C3 counterexample: the claim says the failure handler of the
forward-only strategy can observe a `Mismatch` depth, but no entry rule
with a middle marker provides the depth-receiving `else(err)` failure
form — `else_depth_supported` records, straight from the macro's rule
list, that the `**` entry rules accept only a bare `else` expression, so
no depth value is observable there. -/
theorem c3_counterexample : else_depth_supported MidForm.starStar = false :=
  rfl

/-- C3 (amended): in the forward-only strategy, when fewer than `k`
elements remain after an accepted prefix the match fails, and when the
suffix slots reject the final window the match fails; both failures are
plain mismatches routed to the bare `else` handler, which receives no
depth value. -/
theorem c3_amended {α : Type} (fslots bslots : List (α → Bool))
    (src : List α) (hk : 0 < bslots.length) :
    (slots_match fslots (src.take fslots.length) = true →
      src.length < fslots.length + bslots.length →
      iunpack_fwd fslots bslots src = .mismatch)
    ∧ (slots_match bslots (src.drop (src.length - bslots.length)) = false →
      iunpack_fwd fslots bslots src = .mismatch) := by
  constructor
  · intro _ hshort
    rw [iunpack_fwd_eq_spec _ _ _ hk]
    unfold mres_spec
    exact if_neg (fun h => absurd h.1 (by omega))
  · intro hrej
    rw [iunpack_fwd_eq_spec _ _ _ hk]
    unfold mres_spec
    exact if_neg (fun h => by simp [h.2.2] at hrej)

theorem c3_witness :
    ((slots_match [fun _ => true]
        (([0, 1] : List Nat).take 1) = true →
      ([0, 1] : List Nat).length < 1 + 2 →
      iunpack_fwd [fun _ => true] [fun _ => true, fun _ => true]
        ([0, 1] : List Nat) = .mismatch)
    ∧ (slots_match [fun _ => true, fun _ => true]
        (([0, 1] : List Nat).drop (([0, 1] : List Nat).length - 2)) = false →
      iunpack_fwd [fun _ => true] [fun _ => true, fun _ => true]
        ([0, 1] : List Nat) = .mismatch)) :=
  c3_amended [fun _ => true] [fun _ => true, fun _ => true] [0, 1] (by decide)

/-- C4: for a pattern with no middle whose prefix slots all accept, the
engine performs one extra pull after the prefix: a source of exactly
prefix length succeeds binding all values in source order, and a longer
source fails with depth equal to the prefix length. -/
theorem c4_exact_and_excess {α : Type} (fslots : List (α → Bool))
    (src : List α)
    (hacc : slots_match fslots (src.take fslots.length) = true) :
    (src.length = fslots.length → iunpack_sized fslots src = .ok src)
    ∧ (fslots.length < src.length →
        iunpack_sized fslots src = .error fslots.length) := by
  constructor
  · intro hn
    have htake : src.take fslots.length = src := by
      rw [← hn, List.take_length]
    have hdrop : src.drop fslots.length = [] := by
      rw [← hn, List.drop_length]
    unfold iunpack_sized
    simp only [sized_pat_errval_of_match _ _ 0 hacc, hdrop, htake]
  · intro hlt
    unfold iunpack_sized
    cases hd : src.drop fslots.length with
    | nil =>
      exfalso
      have := congrArg List.length hd
      rw [List.length_drop] at this
      simp at this
      omega
    | cons y ys =>
      simp only [sized_pat_errval_of_match _ _ 0 hacc, hd, Nat.zero_add]

theorem c4_witness :
    iunpack_sized [fun _ => true, fun _ => true] ([5, 6] : List Nat)
        = .ok [5, 6]
    ∧ iunpack_sized [fun _ => true, fun _ => true] ([5, 6, 7] : List Nat)
        = .error 2 :=
  ⟨(c4_exact_and_excess [fun _ => true, fun _ => true] [5, 6]
      (by decide)).1 (by decide),
   (c4_exact_and_excess [fun _ => true, fun _ => true] [5, 6, 7]
      (by decide)).2 (by decide)⟩

/-- C5: for a pattern with no middle, if slots `ss` have accepted the
elements `xs` one-for-one and the next slot `s` then meets either an
exhausted source (`tail = []`) or an element it rejects, the match fails
with depth `ss.length` — the count of elements successfully pulled and
accepted before the failure; with `tail = []` this covers a source of
`m < p` elements reporting depth `m`. -/
theorem c5_too_few_or_reject {α : Type} (ss : List (α → Bool)) (xs : List α)
    (hacc : slots_match ss xs = true) (s : α → Bool)
    (rest : List (α → Bool)) (tail : List α)
    (hfail : tail = [] ∨ ∃ y ys, tail = y :: ys ∧ s y = false) :
    iunpack_sized (ss ++ s :: rest) (xs ++ tail) = .error ss.length := by
  unfold iunpack_sized
  simp only [sized_pat_errval_split ss xs hacc s rest tail 0 hfail,
    Nat.zero_add]

theorem c5_witness :
    iunpack_sized ([fun _ => true] ++ (fun x => x == 0) :: [])
        (([7] : List Nat) ++ [5]) = .error 1
    ∧ iunpack_sized ([fun _ => true, fun _ => true] ++ (fun _ => true) :: [])
        (([7, 5] : List Nat) ++ []) = .error 2 :=
  ⟨c5_too_few_or_reject [fun _ => true] [7] (by decide) _ [] [5]
      (Or.inr ⟨5, [], rfl, by decide⟩),
   c5_too_few_or_reject [fun _ => true, fun _ => true] [7, 5] (by decide)
      _ [] [] (Or.inl rfl)⟩

/-- C6: in the bidirectional strategy (`*name`), the suffix is pulled from
the back of the source (rightmost suffix slot first — the nesting of
`revpat_back` runs the rightmost slot's pull first), and on success each
suffix slot, read left to right, is bound to the corresponding element of
the last `k` elements of the source in original left-to-right order: on
`pre ++ mid ++ suf` the suffix binding is exactly `suf`. -/
theorem c6_back_extract {α : Type} (fslots bslots : List (α → Bool))
    (pre mid suf : List α)
    (hp : slots_match fslots pre = true)
    (hs : slots_match bslots suf = true) :
    iunpack_dei fslots bslots (pre ++ mid ++ suf) = .ok pre mid suf := by
  rw [iunpack_dei_eq_spec, mres_spec_append _ _ _ _ _ hp hs]

theorem c6_witness :
    iunpack_dei [fun x => x == 0] [fun x => x == 3, fun x => x == 4]
      ([0] ++ [1, 2] ++ [3, 4] : List Nat) = .ok [0] [1, 2] [3, 4] :=
  c6_back_extract _ _ _ _ _ (by decide) (by decide)

/-- C7: for the resumable-middle form (`*=name`), on every input of
length at least `p + k` (given as `pre ++ mid ++ suf`) whose outer
segments the slots accept, the match succeeds and the middle component —
the still-live cursor bound to the middle name — has exactly the elements
between prefix and suffix left to yield, in order, with nothing skipped
or duplicated. -/
theorem c7_resumable {α : Type} (fslots bslots : List (α → Bool))
    (pre mid suf : List α)
    (hp : slots_match fslots pre = true)
    (hs : slots_match bslots suf = true) :
    iunpack_resum fslots bslots (pre ++ mid ++ suf) = .ok pre mid suf := by
  rw [iunpack_resum_eq_spec, mres_spec_append _ _ _ _ _ hp hs]

theorem c7_witness :
    iunpack_resum [fun x => x == 0] [fun x => x == 3, fun x => x == 4]
      ([0] ++ [1, 2] ++ [3, 4] : List Nat) = .ok [0] [1, 2] [3, 4] :=
  c7_resumable _ _ _ _ _ (by decide) (by decide)

/-- C8 counterexample: the claim says a `*=name` pattern has no suffix
slots and binds the still-live forward cursor directly, but the `*=` rule
(line 222, `$(, $bpat:pat)*`) accepts suffix slots: here one prefix slot,
one suffix slot and source `[0, 1, 2]` succeed, and the cursor bound to
the middle name is `[1]` — the last element was consumed from the back by
the suffix slot before the cursor was handed over. -/
theorem c8_counterexample :
    iunpack_resum [fun _ => true] [fun _ => true] ([0, 1, 2] : List Nat)
      = .ok [0] [1] [2] := rfl

/-- C8 (amended): a `*=name` pattern may include suffix slots, pulled
from the back of the source after the prefix; the still-live forward
cursor, after those back pulls, is bound to the middle name with no
post-match length or exhaustion check performed on it. -/
theorem c8_amended {α : Type} (fslots : List (α → Bool)) (b : α → Bool)
    (bs : List (α → Bool)) (pre mid suf : List α)
    (hp : slots_match fslots pre = true)
    (hs : slots_match (b :: bs) suf = true) :
    iunpack_resum fslots (b :: bs) (pre ++ mid ++ suf) = .ok pre mid suf := by
  rw [iunpack_resum_eq_spec, mres_spec_append _ _ _ _ _ hp hs]

theorem c8_witness :
    iunpack_resum [fun _ => true] ((fun x => x == 9) :: [])
      ([4] ++ [5, 6] ++ [9] : List Nat) = .ok [4] [5, 6] [9] :=
  c8_amended _ _ _ _ _ _ (by decide) (by decide)

/-- C9: the matching logic never panics: in the single-pass tail window
(both the named `**name` and the unnamed `**` form, whose grammar requires
at least one suffix slot) the circular-buffer cursor stays strictly below
the buffer length, so buffer indexing and the final left rotation are in
bounds, and every failure is an ordinary mismatch outcome; the remaining
strategies contain no indexing at all. -/
theorem c9_no_panic {α : Type} (fslots bslots : List (α → Bool))
    (src : List α) (hk : 0 < bslots.length) :
    iunpack_fwd fslots bslots src ≠ MRes.oobPanic
    ∧ iunpack_fwd_unnamed fslots bslots src ≠ URes.oobPanic := by
  refine ⟨?_, iunpack_fwd_unnamed_no_panic _ _ _ hk⟩
  rw [iunpack_fwd_eq_spec _ _ _ hk]
  exact mres_spec_ne_panic _ _ _

theorem c9_witness :
    iunpack_fwd [fun _ => true] [fun _ => true] ([0, 1, 2, 3] : List Nat)
        ≠ MRes.oobPanic
    ∧ iunpack_fwd_unnamed [fun _ => true] [fun _ => true]
        ([0, 1, 2, 3] : List Nat) ≠ URes.oobPanic :=
  c9_no_panic [fun _ => true] [fun _ => true] [0, 1, 2, 3] (by decide)

/-- C10: a pattern with zero slots and no middle is accepted by the entry
rules, succeeds exactly when the source yields no elements, and on every
non-empty source fails with reported depth 0 in the depth-receiving
failure form. -/
theorem c10_empty_pattern {α : Type} (src : List α) :
    iunpack_sized ([] : List (α → Bool)) src =
      if src.isEmpty then .ok [] else .error 0 := by
  cases src <;> rfl

end IUnpack
